import Mathlib

set_option linter.unusedVariables false

namespace System3

/-! Shallow embedding of the conversation-orchestration core of the
dviramontes/system_3 repository (`src/main.go`, and the earlier revision of
the same program in `src/unnamed/part_000`).

Go strings are modelled as Lean `String`s, except for file contents in the
`edit_file` tool, which are modelled as `List Char` so that the
search-and-replace algorithm can be reasoned about character by character.

Effectful boundaries are passed in explicitly:
the human input source (`getUserMessage`, reading stdin) is a finite list of
lines, exhaustion of which models end-of-stream; the model transport
(`client.Messages.New`) is a finite script of replies, one entry consumed per
call, where an `Except.error` entry models a transport failure; the file
system is a map from paths to optional contents.  Terminal output
(`fmt.Print`/`fmt.Printf`) and the act of calling the transport are recorded
as an ordered list of observable events. -/

/-- Role of a message in the transcript.  In `src/main.go` user messages are
built with `anthropic.NewUserMessage` and model replies are appended via
`message.ToParam()`. -/
inductive Role where
  | user
  | assistant
deriving DecidableEq, Repr

/-- Content blocks of the conversation protocol.  `Agent.Run` switches on
`content.Type` with cases `"text"` and `"tool_use"`; tool results are built
with `anthropic.NewToolResultBlock(id, content, isError)`. -/
inductive ContentBlock where
  | text (body : String)
  | toolUse (id name input : String)
  | toolResult (id content : String) (isError : Bool)
deriving DecidableEq, Repr

/-- One message of the transcript: a role together with an ordered list of
content blocks (`anthropic.MessageParam`). -/
structure Message where
  role : Role
  content : List ContentBlock
deriving DecidableEq, Repr

/-- Observable events of one run, in order: the startup banner
(`fmt.Println("Chat with Claude ...")`), the `"You: "` input prompt, a
displayed model text line (`"Claude: ..."` ), the pre-execution tool log line
(`"tool: name(input)"`), and one event per call of the model transport. -/
inductive Event where
  | banner
  | promptUser
  | showText (body : String)
  | logTool (name input : String)
  | modelCall
deriving DecidableEq, Repr

/-- How a run of the agent loop ended.  `done` is the normal `return nil`
after end-of-stream on input; `transportError` is the `return err` taken when
`runInterface` fails.  `outOfScript` is an artifact of the finite reply
script: it marks the point where the Go loop would make a further model call
for which the script supplies no reply. -/
inductive RunResult where
  | done
  | transportError (e : String)
  | outOfScript
deriving DecidableEq, Repr

/-- Result of running the agent loop: the outcome, the final transcript
(`conversation` in the Go code) and the ordered observable events. -/
structure RunOutput where
  result : RunResult
  transcript : List Message
  events : List Event
deriving DecidableEq, Repr

/-- One property entry of a generated input schema: the JSON type of the
field and its `jsonschema_description` tag. -/
structure SchemaProperty where
  jsonType : String
  description : String
deriving DecidableEq, Repr

/-- The schema value advertised for a tool
(`anthropic.ToolInputSchemaParam`): the Go code populates only its
`Properties` field. -/
structure ToolInputSchemaParam where
  properties : List (String × SchemaProperty)
deriving DecidableEq, Repr

/-- `ToolDefinition` from `src/main.go`: name, description, declared input
schema, and the execution function mapping the raw input payload to either a
response string or an error message (the two-valued Go return
`(string, error)`). -/
structure ToolDefinition where
  Name : String
  Description : String
  InputSchema : ToolInputSchemaParam
  Function : String → Except String String

/-- The first-match registry lookup performed by the `for _, tool := range
a.tools` loop at the top of `Agent.executeTool`. -/
def lookupTool (tools : List ToolDefinition) (name : String) :
    Option ToolDefinition :=
  match tools with
  | [] => none
  | t :: rest => if t.Name = name then some t else lookupTool rest name

/-- `Agent.executeTool` from `src/main.go`: look up the named tool; if
absent, return the `"tool not found"` error result without logging or
executing anything; otherwise log the invocation and convert the execute
function's outcome into a tool-result block. -/
def executeTool (tools : List ToolDefinition) (id name input : String) :
    ContentBlock × List Event :=
  match lookupTool tools name with
  | none => (.toolResult id "tool not found" true, [])
  | some toolDef =>
    match toolDef.Function input with
    | .error e => (.toolResult id e true, [.logTool name input])
    | .ok response => (.toolResult id response false, [.logTool name input])

/-- The block-scanning loop inside `Agent.Run` (`for _, content := range
message.Content`): text blocks are displayed immediately, tool-use blocks are
dispatched in order and their results collected; any other block type falls
through the switch.  Returns the collected `toolResults` and the events in
emission order. -/
def handleReply (tools : List ToolDefinition) :
    List ContentBlock → List ContentBlock × List Event
  | [] => ([], [])
  | .text body :: rest =>
    let pr := handleReply tools rest
    (pr.1, .showText body :: pr.2)
  | .toolUse id name input :: rest =>
    let r := executeTool tools id name input
    let pr := handleReply tools rest
    (r.1 :: pr.1, r.2 ++ pr.2)
  | .toolResult _ _ _ :: rest => handleReply tools rest

/-- `anthropic.NewUserMessage(anthropic.NewTextBlock(userInput))`. -/
def userTextMessage (s : String) : Message :=
  ⟨.user, [.text s]⟩

/-- The model-call phase of one iteration of the `for` loop in `Agent.Run`,
together with all following iterations.  Each entry of `replies` is consumed
by one `runInterface` call.  A failing call returns its error immediately
(`if err != nil { return err }`), leaving the transcript as it was.  A
successful reply is appended to the transcript and scanned; if it produced no
tool results the next iteration starts with `readUserInput = true` (prompt,
then read one line, end-of-stream breaking the loop), otherwise the results
are appended as one user message and the next iteration skips the read. -/
def modelStep (tools : List ToolDefinition) :
    List String → List (Except String (List ContentBlock)) → List Message →
    RunOutput
  | _, [], conv => ⟨.outOfScript, conv, [.modelCall]⟩
  | _, .error e :: _, conv => ⟨.transportError e, conv, [.modelCall]⟩
  | inputs, .ok blocks :: rest, conv =>
    let conv1 := conv ++ [Message.mk .assistant blocks]
    let pr := handleReply tools blocks
    if pr.1.isEmpty then
      match inputs with
      | [] => ⟨.done, conv1, .modelCall :: pr.2 ++ [.promptUser]⟩
      | i :: is =>
        let next := modelStep tools is rest (conv1 ++ [userTextMessage i])
        ⟨next.result, next.transcript,
          .modelCall :: pr.2 ++ .promptUser :: next.events⟩
    else
      let next := modelStep tools inputs rest (conv1 ++ [Message.mk .user pr.1])
      ⟨next.result, next.transcript, .modelCall :: pr.2 ++ next.events⟩

/-- One iteration of `Agent.Run` entered at the top of the `for` loop with
the given `readUserInput` flag: when the flag is set, prompt and read one
line (end-of-stream breaks the loop and returns normally), append the line as
a user message, then proceed to the model-call phase. -/
def loopStep (tools : List ToolDefinition) (inputs : List String)
    (replies : List (Except String (List ContentBlock)))
    (conv : List Message) (readUserInput : Bool) : RunOutput :=
  if readUserInput then
    match inputs with
    | [] => ⟨.done, conv, [.promptUser]⟩
    | i :: is =>
      let next := modelStep tools is replies (conv ++ [userTextMessage i])
      ⟨next.result, next.transcript, .promptUser :: next.events⟩
  else
    modelStep tools inputs replies conv

/-- `Agent.Run`: print the banner, then run the loop starting from an empty
transcript with `readUserInput = true`. -/
def Run (tools : List ToolDefinition) (inputs : List String)
    (replies : List (Except String (List ContentBlock))) : RunOutput :=
  let next := loopStep tools inputs replies [] true
  ⟨next.result, next.transcript, .banner :: next.events⟩

/-- The tool-invocation blocks of a reply, in order, as `(id, name, input)`
triples. -/
def toolUseBlocks (blocks : List ContentBlock) :
    List (String × String × String) :=
  blocks.filterMap fun b =>
    match b with
    | .toolUse id name input => some (id, name, input)
    | _ => none

/-- The correlation id carried by a block (empty for text blocks). -/
def blockId : ContentBlock → String
  | .text _ => ""
  | .toolUse id _ _ => id
  | .toolResult id _ _ => id

/-- Whether a block is a tool-result block. -/
def isToolResultBlock : ContentBlock → Bool
  | .toolResult _ _ _ => true
  | _ => false

/-- The display events produced by the text blocks of a reply, in order. -/
def textEvents (blocks : List ContentBlock) : List Event :=
  blocks.filterMap fun b =>
    match b with
    | .text body => some (.showText body)
    | _ => none

/-- A concrete tool for witnesses: returns its raw input unchanged. -/
def echoTool : ToolDefinition := ⟨"echo", "", ⟨[]⟩, fun s => .ok s⟩

/-- A concrete tool for witnesses: a stub named like the real `read_file`. -/
def stubReadFileTool : ToolDefinition := ⟨"read_file", "", ⟨[]⟩, fun _ => .ok ""⟩

/-- A concrete tool for witnesses: always fails with `"disk full"`. -/
def diskTool : ToolDefinition := ⟨"disk", "", ⟨[]⟩, fun _ => .error "disk full"⟩

/-! Tool bodies relevant to the claims.  The `encoding/json` decoder and the
operating-system calls are external collaborators, so they enter these
definitions as explicit arguments (the decode outcome of the raw payload,
and the file-system behaviour). -/

/-- Outcome of running a Go function that may return a value, return an
error value, or abort the whole process (a Go panic). -/
inductive GoOutcome (α : Type) where
  | ok (val : α)
  | err (msg : String)
  | aborted (msg : String)
deriving DecidableEq, Repr

/-- The decoded input of the `read_file` tool (`ReadFileInput`). -/
structure ReadFileInput where
  path : String
deriving DecidableEq, Repr

/-- The decoded input of the `list_files` tool (`ListFilesInput`). -/
structure ListFilesInput where
  path : String
deriving DecidableEq, Repr

/-- `ReadFile` from `src/main.go`, over the `json.Unmarshal` outcome for the
raw payload and the `os.ReadFile` behaviour.  On a decode failure the code
executes `panic(err)`, aborting the process; a file-system failure is
returned as an error value. -/
def ReadFile (decoded : Except String ReadFileInput)
    (readFileOS : String → Except String String) : GoOutcome String :=
  match decoded with
  | .error e => .aborted e
  | .ok inp =>
    match readFileOS inp.path with
    | .error e => .err e
    | .ok content => .ok content

/-- The `json.Marshal` of a string slice performed by `ListFiles` (escaping
of special characters inside entries is elided). -/
def jsonMarshalStringList (files : List String) : String :=
  "[" ++ String.intercalate "," (files.map fun f => "\"" ++ f ++ "\"") ++ "]"

/-- `ListFiles` from `src/main.go`, over the `json.Unmarshal` outcome for the
raw payload and the `filepath.Walk` behaviour (which yields the collected
relative paths, directories carrying a trailing slash, or an error).  On a
decode failure the code executes `panic(err)`, aborting the process; a walk
failure is returned as an error value. -/
def ListFiles (decoded : Except String ListFilesInput)
    (walk : String → Except String (List String)) : GoOutcome String :=
  match decoded with
  | .error e => .aborted e
  | .ok inp =>
    let dir := if inp.path = "" then "." else inp.path
    match walk dir with
    | .error e => .err e
    | .ok files => .ok (jsonMarshalStringList files)

/-! The schema generator.  The reflector itself is the external
invopop/jsonschema library, outside this repository; `GenerateSchema` in
`src/main.go` configures it and forwards the reflected properties. -/

/-- A statically declared input field: Go field name as serialised to JSON,
its JSON type, and its `jsonschema_description` tag. -/
structure FieldSpec where
  name : String
  jsonType : String
  description : String
deriving DecidableEq, Repr

/-- The schema produced by one reflection run: the per-field property table,
whether undeclared additional properties are allowed, and whether the schema
is normalised into a reference table instead of being fully inlined. -/
structure ReflectedSchema where
  properties : List (String × SchemaProperty)
  additionalPropertiesAllowed : Bool
  usesReferences : Bool
deriving DecidableEq, Repr

/-- Modelled from the spec: the external invopop/jsonschema reflector called
by `GenerateSchema` (not part of this repository).  Per the spec's Schema
Generator contract it is a pure derivation listing every declared field with
its name, type and description; the `AllowAdditionalProperties` flag
controls whether undeclared properties are allowed, and the
`DoNotReference` flag makes the schema fully inlined rather than normalised
into a reference table. -/
def reflect (allowAdditionalProperties doNotReference : Bool)
    (shape : List FieldSpec) : ReflectedSchema :=
  { properties := shape.map fun f => (f.name, ⟨f.jsonType, f.description⟩),
    additionalPropertiesAllowed := allowAdditionalProperties,
    usesReferences := !doNotReference }

/-- `GenerateSchema` from `src/main.go`: run the reflector with
`AllowAdditionalProperties: false` and `DoNotReference: true` on the
statically declared shape and return an `anthropic.ToolInputSchemaParam`
carrying the reflected properties. -/
def GenerateSchema (shape : List FieldSpec) : ToolInputSchemaParam :=
  let schema := reflect false true shape
  ⟨schema.properties⟩

/-- The declared shape of `ReadFileInput` in `src/main.go`. -/
def readFileInputShape : List FieldSpec :=
  [⟨"path", "string", "The relative path of a file in the working directory."⟩]

/-- The declared shape of `ListFilesInput` in `src/main.go`. -/
def listFilesInputShape : List FieldSpec :=
  [⟨"path", "string",
    "Optional relative path to list files from. Defaults to current directory if not provided."⟩]

/-- The declared shape of `EditFileInput` in `src/main.go`. -/
def editFileInputShape : List FieldSpec :=
  [⟨"path", "string", "The path to the file"⟩,
   ⟨"old_str", "string",
    "Text to search for - must match exactly and must only have one match exactly"⟩,
   ⟨"new_str", "string", "Text to replace old_str with"⟩]

/-- `var ReadFileInputSchema = GenerateSchema[ReadFileInput]()`. -/
def ReadFileInputSchema : ToolInputSchemaParam :=
  GenerateSchema readFileInputShape

/-! The `edit_file` tool.  File contents are modelled as `List Char`; the
file system is a map from paths to optional contents. -/

/-- A file system: each path maps to the content of the file there, if one
exists (`none` models the `os.IsNotExist` read failure). -/
def FileSys := String → Option (List Char)

/-- `os.WriteFile`: update the content at one path. -/
def writeFS (fs : FileSys) (p : String) (content : List Char) : FileSys :=
  fun q => if q = p then some content else fs q

/-- Go `strings.Replace(s, old, new, -1)` in the empty-pattern case: `new`
is inserted at the start of `s` and after every character. -/
def replaceEmptyPat (new : List Char) : List Char → List Char
  | [] => new
  | c :: rest => new ++ c :: replaceEmptyPat new rest

/-- Go `strings.Replace(s, old, new, -1)` in the non-empty-pattern case:
scan left to right, replacing each leftmost non-overlapping occurrence of
`old` by `new`. -/
def replaceAllPos (old new : List Char) : List Char → List Char
  | [] => []
  | c :: rest =>
    if h : old ≠ [] ∧ old.isPrefixOf (c :: rest) then
      new ++ replaceAllPos old new ((c :: rest).drop old.length)
    else
      c :: replaceAllPos old new rest
termination_by s => s.length
decreasing_by
  · simp only [List.length_drop, List.length_cons]
    have hpos : 0 < old.length := List.length_pos.mpr h.1
    omega
  · simp

/-- Go `strings.Replace(s, old, new, -1)`: replace all occurrences. -/
def replaceAll (old new s : List Char) : List Char :=
  if old = [] then replaceEmptyPat new s else replaceAllPos old new s

/-- The decoded input of the `edit_file` tool (`EditFileInput`). -/
structure EditFileInput where
  path : String
  old_str : List Char
  new_str : List Char

/-- `createNewFile` from `src/main.go` (the `os.MkdirAll` step is elided:
the modelled file system is a flat map). -/
def createNewFile (fs : FileSys) (filePath : String) (content : List Char) :
    Except String String × FileSys :=
  (.ok ("Successfully created file " ++ filePath), writeFS fs filePath content)

/-- `EditFile` from `src/main.go`, after the decode step (whose failure this
tool correctly returns as an error rather than panicking): validate the
parameters, read the file — a missing file with empty `old_str` is created
with `new_str` as its content, any other read failure is returned — then
replace every occurrence of `old_str`, report `"old_str not found in file"`
when nothing changed, and otherwise write the new content and return
`"OK"`. -/
def EditFile (fs : FileSys) (inp : EditFileInput) :
    Except String String × FileSys :=
  if inp.path = "" ∨ inp.old_str = inp.new_str then
    (.error "invalid input parameters", fs)
  else
    match fs inp.path with
    | none =>
      if inp.old_str = [] then createNewFile fs inp.path inp.new_str
      else (.error "no such file or directory", fs)
    | some content =>
      let newContent := replaceAll inp.old_str inp.new_str content
      if content = newContent ∧ inp.old_str ≠ [] then
        (.error "old_str not found in file", fs)
      else
        (.ok "OK", writeFS fs inp.path newContent)

/-- Whether `sub` occurs as a contiguous substring. -/
def occursIn (sub : List Char) : List Char → Bool
  | [] => sub.isEmpty
  | c :: rest => sub.isPrefixOf (c :: rest) || occursIn sub rest

/-- The decomposition of `s` along the leftmost non-overlapping occurrences
of `old`: the segments around and between the occurrences, in order. -/
def splitOnSub (old : List Char) : List Char → List (List Char)
  | [] => [[]]
  | c :: rest =>
    if h : old ≠ [] ∧ old.isPrefixOf (c :: rest) then
      [] :: splitOnSub old ((c :: rest).drop old.length)
    else
      match splitOnSub old rest with
      | [] => [[c]]
      | p :: ps => (c :: p) :: ps
termination_by s => s.length
decreasing_by
  · simp only [List.length_drop, List.length_cons]
    have hpos : 0 < old.length := List.length_pos.mpr h.1
    omega
  · simp

/-- Interleaving concatenation:
`joinWith sep [p, q, r] = p ++ sep ++ q ++ sep ++ r`. -/
def joinWith (sep : List Char) : List (List Char) → List Char
  | [] => []
  | [p] => p
  | p :: q :: ps => p ++ sep ++ joinWith sep (q :: ps)

/-- A concrete file system for the C9 witness. -/
def editWitnessFS : FileSys :=
  fun p => if p = "a.txt" then some ['a', 'b', 'a'] else none

/-- The per-tool entry of the advertised catalog (built by the
`anthropic.ToolUnionParam` loop in `runInterface`). -/
structure AnthropicToolParam where
  name : String
  description : String
  inputSchema : ToolInputSchemaParam
deriving DecidableEq, Repr

/-- The request built by `runInterface` (`anthropic.MessageNewParams`): the
fixed model identifier, the fixed token bound, the entire transcript, and
the full tool catalog. -/
structure MessageNewParams where
  model : String
  maxTokens : Nat
  messages : List Message
  tools : List AnthropicToolParam
deriving DecidableEq, Repr

/-- The request-construction part of `Agent.runInterface` from
`src/main.go`; the transport call itself (`client.Messages.New`) is the
external boundary providing the scripted replies. -/
def runInterfaceRequest (tools : List ToolDefinition)
    (conversation : List Message) : MessageNewParams :=
  { model := "claude-3-7-sonnet-latest",
    maxTokens := 1024,
    messages := conversation,
    tools := tools.map fun t => ⟨t.Name, t.Description, t.InputSchema⟩ }

namespace Part000

/-! Embedding of the orchestration loop of `src/unnamed/part_000`, the
earlier revision of the same program, over the same protocol types.  Its
`Agent.Run`, `Agent.executeTool` and `Agent.runInterface` are embedded
independently from that file's text. -/

/-- The first-match registry lookup in `Agent.executeTool` of
`src/unnamed/part_000`. -/
def lookupTool (tools : List ToolDefinition) (name : String) :
    Option ToolDefinition :=
  match tools with
  | [] => none
  | t :: rest => if t.Name = name then some t else lookupTool rest name

/-- `Agent.executeTool` from `src/unnamed/part_000`. -/
def executeTool (tools : List ToolDefinition) (id name input : String) :
    ContentBlock × List Event :=
  match lookupTool tools name with
  | none => (.toolResult id "tool not found" true, [])
  | some toolDef =>
    match toolDef.Function input with
    | .error e => (.toolResult id e true, [.logTool name input])
    | .ok response => (.toolResult id response false, [.logTool name input])

/-- The block-scanning loop inside `Agent.Run` of `src/unnamed/part_000`. -/
def handleReply (tools : List ToolDefinition) :
    List ContentBlock → List ContentBlock × List Event
  | [] => ([], [])
  | .text body :: rest =>
    let pr := handleReply tools rest
    (pr.1, .showText body :: pr.2)
  | .toolUse id name input :: rest =>
    let r := executeTool tools id name input
    let pr := handleReply tools rest
    (r.1 :: pr.1, r.2 ++ pr.2)
  | .toolResult _ _ _ :: rest => handleReply tools rest

/-- The model-call phase of the `for` loop in `Agent.Run` of
`src/unnamed/part_000`, with all following iterations. -/
def modelStep (tools : List ToolDefinition) :
    List String → List (Except String (List ContentBlock)) → List Message →
    RunOutput
  | _, [], conv => ⟨.outOfScript, conv, [.modelCall]⟩
  | _, .error e :: _, conv => ⟨.transportError e, conv, [.modelCall]⟩
  | inputs, .ok blocks :: rest, conv =>
    let conv1 := conv ++ [Message.mk .assistant blocks]
    let pr := handleReply tools blocks
    if pr.1.isEmpty then
      match inputs with
      | [] => ⟨.done, conv1, .modelCall :: pr.2 ++ [.promptUser]⟩
      | i :: is =>
        let next := modelStep tools is rest (conv1 ++ [userTextMessage i])
        ⟨next.result, next.transcript,
          .modelCall :: pr.2 ++ .promptUser :: next.events⟩
    else
      let next := modelStep tools inputs rest (conv1 ++ [Message.mk .user pr.1])
      ⟨next.result, next.transcript, .modelCall :: pr.2 ++ next.events⟩

/-- One iteration of `Agent.Run` of `src/unnamed/part_000`, entered at the
top of the `for` loop. -/
def loopStep (tools : List ToolDefinition) (inputs : List String)
    (replies : List (Except String (List ContentBlock)))
    (conv : List Message) (readUserInput : Bool) : RunOutput :=
  if readUserInput then
    match inputs with
    | [] => ⟨.done, conv, [.promptUser]⟩
    | i :: is =>
      let next := modelStep tools is replies (conv ++ [userTextMessage i])
      ⟨next.result, next.transcript, .promptUser :: next.events⟩
  else
    modelStep tools inputs replies conv

/-- `Agent.Run` from `src/unnamed/part_000`. -/
def Run (tools : List ToolDefinition) (inputs : List String)
    (replies : List (Except String (List ContentBlock))) : RunOutput :=
  let next := loopStep tools inputs replies [] true
  ⟨next.result, next.transcript, .banner :: next.events⟩

/-- The request-construction part of `Agent.runInterface` from
`src/unnamed/part_000`. -/
def runInterfaceRequest (tools : List ToolDefinition)
    (conversation : List Message) : MessageNewParams :=
  { model := "claude-3-7-sonnet-latest",
    maxTokens := 1024,
    messages := conversation,
    tools := tools.map fun t => ⟨t.Name, t.Description, t.InputSchema⟩ }

end Part000

/-! Helper lemmas about the dispatch step. -/

lemma executeTool_fst_blockId (tools : List ToolDefinition)
    (id name input : String) :
    blockId (executeTool tools id name input).1 = id := by
  simp only [executeTool]
  split
  · rfl
  · split <;> rfl

lemma executeTool_fst_isToolResult (tools : List ToolDefinition)
    (id name input : String) :
    isToolResultBlock (executeTool tools id name input).1 = true := by
  simp only [executeTool]
  split
  · rfl
  · split <;> rfl

lemma handleReply_fst (tools : List ToolDefinition)
    (blocks : List ContentBlock) :
    (handleReply tools blocks).1 =
      (toolUseBlocks blocks).map fun p => (executeTool tools p.1 p.2.1 p.2.2).1 := by
  induction blocks with
  | nil => rfl
  | cons b rest ih =>
    cases b <;> simp [handleReply, toolUseBlocks, List.filterMap_cons, ih]

lemma handleReply_of_no_toolUse (tools : List ToolDefinition)
    (blocks : List ContentBlock) (h : toolUseBlocks blocks = []) :
    handleReply tools blocks = ([], textEvents blocks) := by
  induction blocks with
  | nil => rfl
  | cons b rest ih =>
    cases b with
    | text body =>
      have h' : toolUseBlocks rest = [] := by
        simpa [toolUseBlocks, List.filterMap_cons] using h
      simp [handleReply, ih h', textEvents, List.filterMap_cons]
    | toolUse id name input =>
      exact absurd h (by simp [toolUseBlocks, List.filterMap_cons])
    | toolResult id c e =>
      have h' : toolUseBlocks rest = [] := by
        simpa [toolUseBlocks, List.filterMap_cons] using h
      simp [handleReply, ih h', textEvents, List.filterMap_cons]

lemma lookupTool_eq_none (tools : List ToolDefinition) (name : String)
    (h : ∀ t ∈ tools, t.Name ≠ name) : lookupTool tools name = none := by
  induction tools with
  | nil => rfl
  | cons t rest ih =>
    simp only [lookupTool]
    rw [if_neg (h t (List.mem_cons_self ..))]
    exact ih fun t' ht' => h t' (List.mem_cons_of_mem _ ht')

lemma lookupTool_map_eq_none (tools : List ToolDefinition) (name : String)
    (remap : ToolDefinition → String → Except String String)
    (h : ∀ t ∈ tools, t.Name ≠ name) :
    lookupTool (tools.map fun t => { t with Function := remap t }) name = none := by
  apply lookupTool_eq_none
  intro t' ht'
  obtain ⟨t, ht, rfl⟩ := List.mem_map.mp ht'
  exact h t ht

lemma modelStep_events_head (tools : List ToolDefinition) (inputs : List String)
    (replies : List (Except String (List ContentBlock))) (conv : List Message) :
    (modelStep tools inputs replies conv).events.head? = some .modelCall := by
  cases replies with
  | nil => rfl
  | cons r rest =>
    cases r with
    | error e => rfl
    | ok blocks =>
      simp only [modelStep]
      split
      · cases inputs <;> rfl
      · rfl

lemma modelStep_with_results (tools : List ToolDefinition)
    (blocks : List ContentBlock) (hne : (handleReply tools blocks).1 ≠ [])
    (inputs : List String) (rest : List (Except String (List ContentBlock)))
    (conv : List Message) :
    modelStep tools inputs (Except.ok blocks :: rest) conv =
      (let next := modelStep tools inputs rest
          (conv ++ [Message.mk .assistant blocks,
                    Message.mk .user (handleReply tools blocks).1])
       ⟨next.result, next.transcript,
        .modelCall :: (handleReply tools blocks).2 ++ next.events⟩) := by
  simp only [modelStep]
  rw [if_neg (by simpa using hne)]
  simp [List.append_assoc]

/-- C1: for every Model reply processed by the agent loop, the collected
tool results are one per `ToolInvocation` block of the reply, every one of
them is a `ToolResult` block, their `id`s equal the corresponding
invocation's `id` positionally and by value in invocation order, and when
any invocation occurred the loop appends them as exactly one Message (of
user role, the tool-result carrier) directly after the Model turn before
continuing. -/
theorem c1_tool_results_match_invocations (tools : List ToolDefinition)
    (blocks : List ContentBlock) :
    (handleReply tools blocks).1.length = (toolUseBlocks blocks).length
    ∧ (∀ r ∈ (handleReply tools blocks).1, isToolResultBlock r = true)
    ∧ (handleReply tools blocks).1.map blockId =
        (toolUseBlocks blocks).map (fun p => p.1)
    ∧ ((handleReply tools blocks).1 ≠ [] →
        ∀ (inputs : List String) (rest : List (Except String (List ContentBlock)))
          (conv : List Message),
        modelStep tools inputs (Except.ok blocks :: rest) conv =
          (let next := modelStep tools inputs rest
              (conv ++ [Message.mk .assistant blocks,
                        Message.mk .user (handleReply tools blocks).1])
           ⟨next.result, next.transcript,
            .modelCall :: (handleReply tools blocks).2 ++ next.events⟩)) := by
  refine ⟨?_, ?_, ?_, ?_⟩
  · rw [handleReply_fst, List.length_map]
  · intro r hr
    rw [handleReply_fst] at hr
    obtain ⟨p, _, rfl⟩ := List.mem_map.mp hr
    exact executeTool_fst_isToolResult ..
  · rw [handleReply_fst, List.map_map]
    exact List.map_congr_left fun p _ => executeTool_fst_blockId ..
  · intro hne inputs rest conv
    exact modelStep_with_results tools blocks hne inputs rest conv

/-- C1 witness: a reply with one `echo` invocation yields exactly one
matching tool result and one appended carrier message. -/
theorem c1_witness :
    (handleReply [echoTool] [.toolUse "t1" "echo" "hi"]).1 ≠ []
    ∧ modelStep [echoTool] [] [Except.ok [.toolUse "t1" "echo" "hi"]] [] =
      (let next := modelStep [echoTool] [] []
          ([] ++ [Message.mk .assistant [.toolUse "t1" "echo" "hi"],
                  Message.mk .user
                    (handleReply [echoTool] [.toolUse "t1" "echo" "hi"]).1])
       ⟨next.result, next.transcript,
        .modelCall ::
          (handleReply [echoTool] [.toolUse "t1" "echo" "hi"]).2 ++
          next.events⟩) := by
  have hne : (handleReply [echoTool]
      [ContentBlock.toolUse "t1" "echo" "hi"]).1 ≠ [] := by
    simp [handleReply, executeTool, echoTool, lookupTool]
  exact ⟨hne,
    (c1_tool_results_match_invocations [echoTool]
      [.toolUse "t1" "echo" "hi"]).2.2.2 hne [] [] []⟩

/-- C2: an invocation naming an unregistered tool yields the
`"tool not found"` error result (with no tool log event), and no registered
tool's execute function is invoked: the outcome is unchanged under arbitrary
replacement of every registered execute function. -/
theorem c2_unregistered_tool (tools : List ToolDefinition)
    (id name input : String) (h : ∀ t ∈ tools, t.Name ≠ name) :
    executeTool tools id name input =
      (.toolResult id "tool not found" true, [])
    ∧ ∀ remap : ToolDefinition → String → Except String String,
        executeTool (tools.map fun t => { t with Function := remap t })
            id name input =
          (.toolResult id "tool not found" true, []) := by
  constructor
  · simp only [executeTool, lookupTool_eq_none tools name h]
  · intro remap
    simp only [executeTool, lookupTool_map_eq_none tools name remap h]

/-- C2 witness: invoking `bogus` against a registry containing only
`read_file` returns the not-found result even when the registered function
is replaced by one that always fails. -/
theorem c2_witness :
    executeTool [stubReadFileTool] "i0" "bogus" "x" =
      (.toolResult "i0" "tool not found" true, [])
    ∧ executeTool ([stubReadFileTool].map
          fun t => { t with Function := fun _ => .error "boom" })
        "i0" "bogus" "x" =
      (.toolResult "i0" "tool not found" true, []) := by
  have h : ∀ t ∈ [stubReadFileTool], t.Name ≠ "bogus" := by
    intro t ht
    simp only [List.mem_singleton] at ht
    subst ht
    simp [stubReadFileTool]
  exact ⟨(c2_unregistered_tool _ "i0" "bogus" "x" h).1,
    (c2_unregistered_tool _ "i0" "bogus" "x" h).2 (fun _ _ => .error "boom")⟩

/-- C4: a tool whose execute function fails with message `m` produces
`ToolResult (id, m, isError := true)`; a reply containing such an invocation
still makes the loop append the results and continue to the next model call
(the continuation's first event is a transport call) instead of terminating
or propagating the failure. -/
theorem c4_tool_failure_is_data (tools : List ToolDefinition)
    (t : ToolDefinition) (id name input m : String)
    (hlook : lookupTool tools name = some t)
    (hfail : t.Function input = .error m) :
    executeTool tools id name input =
      (.toolResult id m true, [.logTool name input])
    ∧ ∀ (pre post : List ContentBlock) (inputs : List String)
        (rest : List (Except String (List ContentBlock))) (conv : List Message),
        ContentBlock.toolResult id m true ∈
          (handleReply tools (pre ++ .toolUse id name input :: post)).1
        ∧ modelStep tools inputs
            (Except.ok (pre ++ .toolUse id name input :: post) :: rest) conv =
          (let blocks := pre ++ ContentBlock.toolUse id name input :: post
           let next := modelStep tools inputs rest
              (conv ++ [Message.mk .assistant blocks,
                        Message.mk .user (handleReply tools blocks).1])
           ⟨next.result, next.transcript,
            .modelCall :: (handleReply tools blocks).2 ++ next.events⟩)
        ∧ (modelStep tools inputs rest
            (conv ++ [Message.mk .assistant (pre ++ .toolUse id name input :: post),
                      Message.mk .user (handleReply tools
                        (pre ++ .toolUse id name input :: post)).1])).events.head?
            = some .modelCall := by
  have hexec : executeTool tools id name input =
      (.toolResult id m true, [.logTool name input]) := by
    simp only [executeTool, hlook, hfail]
  refine ⟨hexec, ?_⟩
  intro pre post inputs rest conv
  have hmemUse : ((id, name, input) : String × String × String) ∈
      toolUseBlocks (pre ++ .toolUse id name input :: post) := by
    simp [toolUseBlocks, List.filterMap_append, List.filterMap_cons]
  have hmem : ContentBlock.toolResult id m true ∈
      (handleReply tools (pre ++ .toolUse id name input :: post)).1 := by
    rw [handleReply_fst]
    have := List.mem_map_of_mem
      (fun p : String × String × String => (executeTool tools p.1 p.2.1 p.2.2).1)
      hmemUse
    simpa [hexec] using this
  have hne : (handleReply tools (pre ++ .toolUse id name input :: post)).1 ≠ [] :=
    fun hnil => by simp [hnil] at hmem
  exact ⟨hmem, modelStep_with_results tools _ hne inputs rest conv,
    modelStep_events_head ..⟩

/-- C4 witness: a `disk` tool failing with message `"disk full"` yields the
error tool result, the result is carried in the appended message, and the
loop proceeds to another model call. -/
theorem c4_witness :
    executeTool [diskTool] "i1" "disk" "payload" =
      (.toolResult "i1" "disk full" true, [.logTool "disk" "payload"])
    ∧ ContentBlock.toolResult "i1" "disk full" true ∈
        (handleReply [diskTool] ([] ++ .toolUse "i1" "disk" "payload" :: [])).1
    ∧ modelStep [diskTool] []
        (Except.ok ([] ++ .toolUse "i1" "disk" "payload" :: []) :: []) [] =
      (let blocks := [] ++ ContentBlock.toolUse "i1" "disk" "payload" :: []
       let next := modelStep [diskTool] [] []
          ([] ++ [Message.mk .assistant blocks,
                  Message.mk .user (handleReply [diskTool] blocks).1])
       ⟨next.result, next.transcript,
        .modelCall :: (handleReply [diskTool] blocks).2 ++ next.events⟩)
    ∧ (modelStep [diskTool] [] []
        ([] ++ [Message.mk .assistant ([] ++ .toolUse "i1" "disk" "payload" :: []),
                Message.mk .user (handleReply [diskTool]
                  ([] ++ .toolUse "i1" "disk" "payload" :: [])).1])).events.head?
        = some .modelCall := by
  have hlook : lookupTool [diskTool] "disk" = some diskTool := by
    simp [lookupTool, diskTool]
  have hfail : diskTool.Function "payload" = .error "disk full" := rfl
  have h := c4_tool_failure_is_data [diskTool] diskTool
    "i1" "disk" "payload" "disk full" hlook hfail
  exact ⟨h.1, (h.2 [] [] [] [] []).1, (h.2 [] [] [] [] []).2.1,
    (h.2 [] [] [] [] []).2.2⟩

/-- C5: if the human input source signals end-of-stream while the loop is
awaiting input, the loop breaks and returns normally with the transcript as
it stands and only the prompt as its event; in particular end-of-stream on
the very first read yields a normal return, an empty transcript, and no
model call. -/
theorem c5_eof_clean_termination (tools : List ToolDefinition)
    (replies : List (Except String (List ContentBlock))) (conv : List Message) :
    loopStep tools [] replies conv true = ⟨.done, conv, [.promptUser]⟩
    ∧ Run tools [] replies = ⟨.done, [], [.banner, .promptUser]⟩ := by
  exact ⟨rfl, rfl⟩

/-- C6: a transport failure terminates the loop immediately with that error:
the transcript gains nothing beyond what preceded the call, no tool is
dispatched, and no further transport call is made. -/
theorem c6_transport_failure_fatal (tools : List ToolDefinition)
    (inputs : List String) (e : String)
    (rest : List (Except String (List ContentBlock))) (conv : List Message) :
    modelStep tools inputs (Except.error e :: rest) conv =
      ⟨.transportError e, conv, [.modelCall]⟩
    ∧ (∀ i is, loopStep tools (i :: is) (Except.error e :: rest) conv true =
        ⟨.transportError e, conv ++ [userTextMessage i],
         [.promptUser, .modelCall]⟩)
    ∧ loopStep tools inputs (Except.error e :: rest) conv false =
        ⟨.transportError e, conv, [.modelCall]⟩ := by
  exact ⟨rfl, fun i is => rfl, rfl⟩

/-- C7: a Model reply containing zero `ToolInvocation` blocks hands control
back to the human exactly once: after its text is displayed there is exactly
one prompt, and the next model call happens only after one further human
input (end-of-stream at that prompt terminating the loop cleanly). -/
theorem c7_no_invocations_prompt_once (tools : List ToolDefinition)
    (inputs : List String) (rest : List (Except String (List ContentBlock)))
    (conv : List Message) (blocks : List ContentBlock)
    (h : toolUseBlocks blocks = []) :
    modelStep tools inputs (Except.ok blocks :: rest) conv =
      match inputs with
      | [] => ⟨.done, conv ++ [Message.mk .assistant blocks],
               .modelCall :: textEvents blocks ++ [.promptUser]⟩
      | i :: is =>
        let next := modelStep tools is rest
          (conv ++ [Message.mk .assistant blocks, userTextMessage i])
        ⟨next.result, next.transcript,
         .modelCall :: textEvents blocks ++ .promptUser :: next.events⟩ := by
  have hr := handleReply_of_no_toolUse tools blocks h
  cases inputs with
  | nil => simp [modelStep, hr]
  | cons i is => simp [modelStep, hr, List.append_assoc]

/-- C7 witness: a pure-text reply leads to exactly one prompt and clean
termination at end-of-stream. -/
theorem c7_witness :
    toolUseBlocks [ContentBlock.text "hello"] = []
    ∧ modelStep [] [] [Except.ok [.text "hello"]] [] =
      ⟨.done, [] ++ [Message.mk .assistant [.text "hello"]],
       .modelCall :: textEvents [.text "hello"] ++ [.promptUser]⟩ := by
  refine ⟨rfl, ?_⟩
  exact c7_no_invocations_prompt_once [] [] [] [] [.text "hello"] rfl

/-- C3 (code bug): the spec requires every tool to signal malformed input as
a failure outcome and never abort the process, but `ReadFile` and
`ListFiles` abort (Go `panic(err)`) whenever the decode of the raw payload
fails — for example on the payload `[]`, a well-formed JSON array that does
not decode into the declared input struct — instead of returning a failure
outcome. -/
theorem c3_decode_failure_aborts :
    (∀ (e : String) (readFileOS : String → Except String String),
      ReadFile (Except.error e) readFileOS = .aborted e
      ∧ ∀ msg, ReadFile (Except.error e) readFileOS ≠ .err msg)
    ∧ (∀ (e : String) (walk : String → Except String (List String)),
      ListFiles (Except.error e) walk = .aborted e
      ∧ ∀ msg, ListFiles (Except.error e) walk ≠ .err msg) :=
  ⟨fun e ro => ⟨rfl, fun msg h => nomatch h⟩,
   fun e w => ⟨rfl, fun msg h => nomatch h⟩⟩

/-- C8: the generated schema lists each declared field's name, type and
description in declaration order; the reflection run disallows undeclared
additional properties and is fully inlined (no internal cross-references);
and the derivation is deterministic — equal input shapes yield equal
schemas. -/
theorem c8_generate_schema (shape : List FieldSpec) :
    (GenerateSchema shape).properties =
      shape.map (fun f => (f.name, ⟨f.jsonType, f.description⟩))
    ∧ (reflect false true shape).additionalPropertiesAllowed = false
    ∧ (reflect false true shape).usesReferences = false
    ∧ ∀ shape2, shape2 = shape → GenerateSchema shape2 = GenerateSchema shape :=
  ⟨rfl, rfl, rfl, fun shape2 h => by rw [h]⟩

/-- C8 witness: the `read_file` input shape. -/
theorem c8_witness :
    (GenerateSchema readFileInputShape).properties =
      readFileInputShape.map (fun f => (f.name, ⟨f.jsonType, f.description⟩))
    ∧ GenerateSchema readFileInputShape = GenerateSchema readFileInputShape :=
  ⟨(c8_generate_schema readFileInputShape).1,
   (c8_generate_schema readFileInputShape).2.2.2 readFileInputShape rfl⟩

lemma joinWith_cons_cons (sep p q : List Char) (ps : List (List Char)) :
    joinWith sep (p :: q :: ps) = p ++ sep ++ joinWith sep (q :: ps) := rfl

lemma isPrefixOf_append_drop {old s : List Char}
    (h : old.isPrefixOf s = true) : old ++ s.drop old.length = s := by
  exact List.prefix_iff_eq_append.mp (List.isPrefixOf_iff_prefix.mp h)

lemma splitOnSub_ne_nil (old s : List Char) : splitOnSub old s ≠ [] := by
  cases s with
  | nil => simp [splitOnSub]
  | cons c rest =>
    rw [splitOnSub]
    split
    · simp
    · split <;> simp

lemma splitOnSub_exists_cons (old s : List Char) :
    ∃ p ps, splitOnSub old s = p :: ps := by
  cases hsp : splitOnSub old s with
  | nil => exact absurd hsp (splitOnSub_ne_nil old s)
  | cons p ps => exact ⟨p, ps, rfl⟩

lemma joinWith_splitOnSub_aux (old : List Char) :
    ∀ (n : Nat) (s : List Char), s.length ≤ n →
      joinWith old (splitOnSub old s) = s := by
  intro n
  induction n with
  | zero =>
    intro s hs
    have hnil : s = [] := List.eq_nil_of_length_eq_zero (Nat.le_zero.mp hs)
    subst hnil
    simp [splitOnSub, joinWith]
  | succ n ih =>
    intro s hs
    cases s with
    | nil => simp [splitOnSub, joinWith]
    | cons c rest =>
      rw [splitOnSub]
      split
      · next h =>
        have hpre : old ++ ((c :: rest).drop old.length) = c :: rest :=
          isPrefixOf_append_drop h.2
        have hlen : ((c :: rest).drop old.length).length ≤ n := by
          have hpos : 0 < old.length := List.length_pos.mpr h.1
          simp only [List.length_drop, List.length_cons]
          simp only [List.length_cons] at hs
          omega
        obtain ⟨p, ps, hps⟩ := splitOnSub_exists_cons old ((c :: rest).drop old.length)
        rw [hps, joinWith_cons_cons, ← hps, ih _ hlen]
        simpa using hpre
      · next h =>
        obtain ⟨p, ps, hps⟩ := splitOnSub_exists_cons old rest
        have hrest : joinWith old (splitOnSub old rest) = rest := by
          apply ih
          simp only [List.length_cons] at hs
          omega
        rw [hps] at hrest
        rw [hps]
        cases ps with
        | nil =>
          simp only [joinWith] at hrest ⊢
          rw [hrest]
        | cons q qs =>
          rw [joinWith_cons_cons] at hrest ⊢
          simp only [List.cons_append, List.append_assoc] at hrest ⊢
          rw [hrest]

lemma joinWith_splitOnSub (old s : List Char) :
    joinWith old (splitOnSub old s) = s :=
  joinWith_splitOnSub_aux old s.length s le_rfl

lemma replaceAllPos_eq_joinWith_aux (old new : List Char) :
    ∀ (n : Nat) (s : List Char), s.length ≤ n →
      replaceAllPos old new s = joinWith new (splitOnSub old s) := by
  intro n
  induction n with
  | zero =>
    intro s hs
    have hnil : s = [] := List.eq_nil_of_length_eq_zero (Nat.le_zero.mp hs)
    subst hnil
    simp [replaceAllPos, splitOnSub, joinWith]
  | succ n ih =>
    intro s hs
    cases s with
    | nil => simp [replaceAllPos, splitOnSub, joinWith]
    | cons c rest =>
      rw [replaceAllPos, splitOnSub]
      by_cases hc : old ≠ [] ∧ old.isPrefixOf (c :: rest) = true
      · rw [dif_pos hc, dif_pos hc]
        have hlen : ((c :: rest).drop old.length).length ≤ n := by
          have hpos : 0 < old.length := List.length_pos.mpr hc.1
          simp only [List.length_drop, List.length_cons]
          simp only [List.length_cons] at hs
          omega
        obtain ⟨p, ps, hps⟩ := splitOnSub_exists_cons old ((c :: rest).drop old.length)
        rw [hps, joinWith_cons_cons, ← hps, ih _ hlen]
        simp
      · rw [dif_neg hc, dif_neg hc]
        obtain ⟨p, ps, hps⟩ := splitOnSub_exists_cons old rest
        have hrest : replaceAllPos old new rest = joinWith new (splitOnSub old rest) := by
          apply ih
          simp only [List.length_cons] at hs
          omega
        rw [hps] at hrest
        rw [hps, hrest]
        cases ps with
        | nil => simp [joinWith]
        | cons q qs =>
          rw [joinWith_cons_cons, joinWith_cons_cons]
          simp

lemma replaceAllPos_eq_joinWith (old new s : List Char) :
    replaceAllPos old new s = joinWith new (splitOnSub old s) :=
  replaceAllPos_eq_joinWith_aux old new s.length s le_rfl

lemma splitOnSub_of_not_occurs (old : List Char) (s : List Char)
    (h : occursIn old s = false) : splitOnSub old s = [s] := by
  induction s with
  | nil => simp [splitOnSub]
  | cons c rest ih =>
    simp only [occursIn, Bool.or_eq_false_iff] at h
    rw [splitOnSub, dif_neg (by simp [h.1]), ih h.2]

lemma two_le_splitOnSub_of_occurs (old : List Char) (hold : old ≠ [])
    (s : List Char) (h : occursIn old s = true) :
    2 ≤ (splitOnSub old s).length := by
  induction s with
  | nil =>
    simp only [occursIn, List.isEmpty_iff] at h
    exact absurd h hold
  | cons c rest ih =>
    simp only [occursIn, Bool.or_eq_true] at h
    rw [splitOnSub]
    by_cases hc : old ≠ [] ∧ old.isPrefixOf (c :: rest) = true
    · rw [dif_pos hc]
      have hpos : 0 < (splitOnSub old ((c :: rest).drop old.length)).length :=
        List.length_pos.mpr (splitOnSub_ne_nil old _)
      simp only [List.length_cons]
      omega
    · have hp : old.isPrefixOf (c :: rest) = false := by
        rcases Bool.eq_false_or_eq_true (old.isPrefixOf (c :: rest)) with ht | hf
        · exact absurd ⟨hold, ht⟩ hc
        · exact hf
      rw [dif_neg hc]
      have hrest : occursIn old rest = true := by
        rcases h with h | h
        · rw [hp] at h; exact absurd h (by simp)
        · exact h
      obtain ⟨p, ps, hps⟩ := splitOnSub_exists_cons old rest
      have := ih hrest
      rw [hps] at this ⊢
      simp only [List.length_cons] at this ⊢
      omega

lemma occursIn_iff_exists (sub : List Char) (s : List Char) :
    occursIn sub s = true ↔ ∃ a b, s = a ++ sub ++ b := by
  induction s with
  | nil =>
    simp only [occursIn, List.isEmpty_iff]
    constructor
    · rintro rfl
      exact ⟨[], [], rfl⟩
    · rintro ⟨a, b, hab⟩
      have := hab.symm
      simp only [List.append_eq_nil] at this
      exact this.1.2
  | cons c rest ih =>
    simp only [occursIn, Bool.or_eq_true]
    constructor
    · rintro (hp | hr)
      · refine ⟨[], (c :: rest).drop sub.length, ?_⟩
        simpa using (isPrefixOf_append_drop hp).symm
      · obtain ⟨a, b, hab⟩ := ih.mp hr
        exact ⟨c :: a, b, by simp [hab]⟩
    · rintro ⟨a, b, hab⟩
      cases a with
      | nil =>
        left
        apply List.isPrefixOf_iff_prefix.mpr
        exact ⟨b, by simpa using hab.symm⟩
      | cons a' as =>
        right
        apply ih.mpr
        refine ⟨as, b, ?_⟩
        simpa using congrArg List.tail hab

lemma joinWith_length (sep : List Char) :
    ∀ (p : List Char) (ps : List (List Char)),
      (joinWith sep (p :: ps)).length =
        p.length + ((ps.map List.length).sum + ps.length * sep.length) := by
  intro p ps
  induction ps generalizing p with
  | nil => simp [joinWith]
  | cons q qs ih =>
    rw [joinWith_cons_cons]
    simp only [List.length_append, ih q, List.map_cons, List.sum_cons,
      List.length_cons, Nat.succ_mul]
    omega

lemma replaceAllPos_ne_self (old new : List Char) (hold : old ≠ [])
    (hne : old ≠ new) (s : List Char) (hocc : occursIn old s = true) :
    replaceAllPos old new s ≠ s := by
  intro heq
  have h2 := two_le_splitOnSub_of_occurs old hold s hocc
  obtain ⟨p, ps, hps⟩ := splitOnSub_exists_cons old s
  cases ps with
  | nil => rw [hps] at h2; simp at h2
  | cons q qs =>
    have hs := joinWith_splitOnSub old s
    have hr := replaceAllPos_eq_joinWith old new s
    rw [hps, joinWith_cons_cons] at hs hr
    rw [hr] at heq
    rw [← hs] at heq
    simp only [List.append_assoc] at heq
    have hmid : new ++ joinWith new (q :: qs) = old ++ joinWith old (q :: qs) :=
      (List.append_right_inj p).mp heq
    have hlen := congrArg List.length hmid
    simp only [List.length_append, joinWith_length] at hlen
    have hlen2 : (qs.length + 1) * new.length = (qs.length + 1) * old.length := by
      rw [Nat.succ_mul, Nat.succ_mul]
      omega
    have hlenEq : new.length = old.length :=
      Nat.eq_of_mul_eq_mul_left (Nat.succ_pos qs.length) hlen2
    obtain ⟨hno, -⟩ := List.append_inj hmid hlenEq
    exact hne hno.symm

lemma splitOnSub_head_prefix (old : List Char) (s : List Char) :
    ∃ p ps t, splitOnSub old s = p :: ps ∧ s = p ++ t := by
  induction s with
  | nil => exact ⟨[], [], [], by simp [splitOnSub], rfl⟩
  | cons c rest ih =>
    by_cases hc : old ≠ [] ∧ old.isPrefixOf (c :: rest) = true
    · exact ⟨[], splitOnSub old ((c :: rest).drop old.length), c :: rest,
        by rw [splitOnSub, dif_pos hc], rfl⟩
    · obtain ⟨p, ps, t, hps, hrest⟩ := ih
      refine ⟨c :: p, ps, t, ?_, by simp [hrest]⟩
      rw [splitOnSub, dif_neg hc, hps]

lemma splitOnSub_parts_aux (old : List Char) (hold : old ≠ []) :
    ∀ (n : Nat) (s : List Char), s.length ≤ n →
      ∀ q ∈ splitOnSub old s, occursIn old q = false := by
  intro n
  induction n with
  | zero =>
    intro s hs q hq
    have hnil : s = [] := List.eq_nil_of_length_eq_zero (Nat.le_zero.mp hs)
    subst hnil
    simp only [splitOnSub, List.mem_singleton] at hq
    subst hq
    simp [occursIn, List.isEmpty_iff, hold]
  | succ n ih =>
    intro s hs q hq
    cases s with
    | nil =>
      simp only [splitOnSub, List.mem_singleton] at hq
      subst hq
      simp [occursIn, List.isEmpty_iff, hold]
    | cons c rest =>
      rw [splitOnSub] at hq
      by_cases hc : old ≠ [] ∧ old.isPrefixOf (c :: rest) = true
      · rw [dif_pos hc] at hq
        have hlen : ((c :: rest).drop old.length).length ≤ n := by
          have hpos : 0 < old.length := List.length_pos.mpr hc.1
          simp only [List.length_drop, List.length_cons]
          simp only [List.length_cons] at hs
          omega
        rcases List.mem_cons.mp hq with rfl | hq'
        · simp [occursIn, List.isEmpty_iff, hold]
        · exact ih _ hlen q hq'
      · rw [dif_neg hc] at hq
        have hlenr : rest.length ≤ n := by
          simp only [List.length_cons] at hs
          omega
        obtain ⟨p, ps, hps⟩ := splitOnSub_exists_cons old rest
        rw [hps] at hq
        rcases List.mem_cons.mp hq with rfl | hq'
        · have hnotp : occursIn old p = false :=
            ih _ hlenr p (by rw [hps]; exact List.mem_cons_self ..)
          have hpfx : old.isPrefixOf (c :: p) = false := by
            rcases Bool.eq_false_or_eq_true (old.isPrefixOf (c :: p)) with ht | hf
            swap
            · exact hf
            · exfalso
              obtain ⟨p', ps', t, hps', hrest⟩ := splitOnSub_head_prefix old rest
              rw [hps] at hps'
              obtain ⟨rfl, -⟩ : p' = p ∧ ps' = ps := by
                constructor <;> injection hps' with h1 h2 <;> simp_all
              obtain ⟨u, hu⟩ := List.isPrefixOf_iff_prefix.mp ht
              have hbig : old.isPrefixOf (c :: rest) = true := by
                apply List.isPrefixOf_iff_prefix.mpr
                refine ⟨u ++ t, ?_⟩
                rw [← List.append_assoc, hu]
                simp [hrest]
              exact hc ⟨hold, hbig⟩
          show occursIn old (c :: p) = false
          simp only [occursIn, Bool.or_eq_false_iff]
          exact ⟨hpfx, hnotp⟩
        · exact ih _ hlenr q (by rw [hps]; exact List.mem_cons_of_mem _ hq')

lemma splitOnSub_parts (old : List Char) (hold : old ≠ []) (s : List Char) :
    ∀ q ∈ splitOnSub old s, occursIn old q = false :=
  splitOnSub_parts_aux old hold s.length s le_rfl

/-- C9: for every existing file and every decoded `edit_file` input with
non-empty path, non-empty `old_str`, and `old_str` distinct from `new_str`:
(the occurrence test coincides with substring containment;) when `old_str`
occurs in the content, `EditFile` returns `"OK"` and writes the content with
every leftmost non-overlapping occurrence replaced — the content decomposes
into at least two segments interleaved with `old_str`, no segment containing
a further occurrence, and the written content interleaves the same segments
with `new_str`; when `old_str` does not occur, `EditFile` returns the error
`"old_str not found in file"` and the file system is unchanged. -/
theorem c9_edit_file_replaces_all (fs : FileSys) (inp : EditFileInput)
    (content : List Char)
    (hpath : inp.path ≠ "") (holdne : inp.old_str ≠ [])
    (hdiff : inp.old_str ≠ inp.new_str)
    (hread : fs inp.path = some content) :
    (occursIn inp.old_str content = true ↔
      ∃ a b, content = a ++ inp.old_str ++ b)
    ∧ (occursIn inp.old_str content = true →
        EditFile fs inp =
          (.ok "OK", writeFS fs inp.path
            (joinWith inp.new_str (splitOnSub inp.old_str content)))
        ∧ 2 ≤ (splitOnSub inp.old_str content).length
        ∧ content = joinWith inp.old_str (splitOnSub inp.old_str content)
        ∧ ∀ q ∈ splitOnSub inp.old_str content,
            occursIn inp.old_str q = false)
    ∧ (occursIn inp.old_str content = false →
        EditFile fs inp = (.error "old_str not found in file", fs)) := by
  have hguard : ¬(inp.path = "" ∨ inp.old_str = inp.new_str) := by
    push_neg
    exact ⟨hpath, hdiff⟩
  have hreplace : replaceAll inp.old_str inp.new_str content =
      replaceAllPos inp.old_str inp.new_str content := by
    rw [replaceAll, if_neg holdne]
  refine ⟨occursIn_iff_exists .., ?_, ?_⟩
  · intro hocc
    have hne := replaceAllPos_ne_self inp.old_str inp.new_str holdne hdiff
      content hocc
    have hcond : ¬(content = replaceAll inp.old_str inp.new_str content
        ∧ inp.old_str ≠ []) := by
      rintro ⟨h1, -⟩
      exact hne (by rw [← hreplace, ← h1])
    refine ⟨?_, two_le_splitOnSub_of_occurs inp.old_str holdne content hocc,
      (joinWith_splitOnSub inp.old_str content).symm,
      splitOnSub_parts inp.old_str holdne content⟩
    simp only [EditFile, hread, if_neg hguard, if_neg hcond]
    rw [hreplace, replaceAllPos_eq_joinWith]
  · intro hocc
    have hsplit := splitOnSub_of_not_occurs inp.old_str content hocc
    have hsame : replaceAllPos inp.old_str inp.new_str content = content := by
      rw [replaceAllPos_eq_joinWith, hsplit]
      rfl
    have hcond : content = replaceAll inp.old_str inp.new_str content
        ∧ inp.old_str ≠ [] := ⟨by rw [hreplace, hsame], holdne⟩
    simp only [EditFile, hread, if_neg hguard, if_pos hcond]

/-- C9 witness: replacing `"a"` by `"c"` in the file `"a.txt"` holding
`"aba"`. -/
theorem c9_witness :
    (occursIn ['a'] ['a', 'b', 'a'] = true ↔
      ∃ a b, ['a', 'b', 'a'] = a ++ ['a'] ++ b)
    ∧ (occursIn ['a'] ['a', 'b', 'a'] = true →
        EditFile editWitnessFS ⟨"a.txt", ['a'], ['c']⟩ =
          (.ok "OK", writeFS editWitnessFS "a.txt"
            (joinWith ['c'] (splitOnSub ['a'] ['a', 'b', 'a'])))
        ∧ 2 ≤ (splitOnSub ['a'] ['a', 'b', 'a']).length
        ∧ ['a', 'b', 'a'] = joinWith ['a'] (splitOnSub ['a'] ['a', 'b', 'a'])
        ∧ ∀ q ∈ splitOnSub ['a'] ['a', 'b', 'a'], occursIn ['a'] q = false)
    ∧ (occursIn ['a'] ['a', 'b', 'a'] = false →
        EditFile editWitnessFS ⟨"a.txt", ['a'], ['c']⟩ =
          (.error "old_str not found in file", editWitnessFS)) := by
  exact c9_edit_file_replaces_all editWitnessFS ⟨"a.txt", ['a'], ['c']⟩
    ['a', 'b', 'a'] (by decide) (by decide) (by decide)
    (by simp [editWitnessFS])

/-- C10: the orchestration loop and tool-dispatch functions of
`src/unnamed/part_000` are behaviourally equivalent to those of
`src/main.go`: for every registered tool list, human input stream, model
reply script and transcript, both produce the same lookup, the same dispatch
results, the same transcript, the same observable events, the same
termination behaviour, and build the same transport request. -/
theorem c10_part000_equivalent :
    (∀ tools name, Part000.lookupTool tools name = lookupTool tools name)
    ∧ (∀ tools id name input,
        Part000.executeTool tools id name input =
          executeTool tools id name input)
    ∧ (∀ tools blocks,
        Part000.handleReply tools blocks = handleReply tools blocks)
    ∧ (∀ tools inputs replies conv,
        Part000.modelStep tools inputs replies conv =
          modelStep tools inputs replies conv)
    ∧ (∀ tools inputs replies conv ru,
        Part000.loopStep tools inputs replies conv ru =
          loopStep tools inputs replies conv ru)
    ∧ (∀ tools conversation,
        Part000.runInterfaceRequest tools conversation =
          runInterfaceRequest tools conversation)
    ∧ (∀ tools inputs replies,
        Part000.Run tools inputs replies = Run tools inputs replies) := by
  have hlookup : ∀ tools name,
      Part000.lookupTool tools name = lookupTool tools name := by
    intro tools name
    induction tools with
    | nil => rfl
    | cons t rest ih => simp [Part000.lookupTool, lookupTool, ih]
  have hexec : ∀ tools id name input,
      Part000.executeTool tools id name input =
        executeTool tools id name input := by
    intro tools id name input
    simp only [Part000.executeTool, executeTool, hlookup]
  have hreply : ∀ tools blocks,
      Part000.handleReply tools blocks = handleReply tools blocks := by
    intro tools blocks
    induction blocks with
    | nil => rfl
    | cons b rest ih =>
      cases b <;> simp [Part000.handleReply, handleReply, ih, hexec]
  have hmodel : ∀ tools inputs replies conv,
      Part000.modelStep tools inputs replies conv =
        modelStep tools inputs replies conv := by
    intro tools inputs replies
    induction replies generalizing inputs with
    | nil => intro conv; rfl
    | cons r rest ih =>
      intro conv
      cases r with
      | error e => rfl
      | ok blocks =>
        simp only [Part000.modelStep, modelStep, hreply]
        split
        · cases inputs with
          | nil => rfl
          | cons i is => simp [ih]
        · simp [ih]
  have hloop : ∀ tools inputs replies conv ru,
      Part000.loopStep tools inputs replies conv ru =
        loopStep tools inputs replies conv ru := by
    intro tools inputs replies conv ru
    simp only [Part000.loopStep, loopStep, hmodel]
  refine ⟨hlookup, hexec, hreply, hmodel, hloop, fun _ _ => rfl, ?_⟩
  intro tools inputs replies
  simp only [Part000.Run, Run, hloop]

example :
    Run [] ["hi"] [.ok [.text "hello"]] =
      ⟨.done,
       [userTextMessage "hi", ⟨.assistant, [.text "hello"]⟩],
       [.banner, .promptUser, .modelCall, .showText "hello", .promptUser]⟩ :=
  rfl

example :
    Run [⟨"echo", "", ⟨[]⟩, fun s => .ok s⟩] ["hi"]
        [.ok [.toolUse "t1" "echo" "hi"], .error "quota"] =
      ⟨.transportError "quota",
       [userTextMessage "hi",
        ⟨.assistant, [.toolUse "t1" "echo" "hi"]⟩,
        ⟨.user, [.toolResult "t1" "hi" false]⟩],
       [.banner, .promptUser, .modelCall, .logTool "echo" "hi",
        .modelCall]⟩ :=
  rfl

end System3
